import Mathlib

/-!
Verification development for the sgqlite incremental git-ingestion engine.

The Rust sources (src/main.rs and src/ingest.rs) are shallowly embedded:
object hashes become `Nat`, byte strings become `List Nat`, the SQLite
tables become lists of row structures with insert-or-ignore semantics, the
git repository becomes a pure lookup structure, and fallible operations
return `Except Err`.  External collaborators that are not part of this
repository (libgit2's revision walk and reference enumeration, the LZ4
codec, SQLite transactions, and the migration-defined table constraints)
are modelled from the specification, as marked in their doc comments.
-/

set_option maxHeartbeats 1000000
set_option maxRecDepth 4000

namespace Sgqlite

/-! ## Object model (git2 values as seen by the program) -/

/-- git2::ObjectType, restricted to the variants matched in the sources. -/
inductive OType
  | any
  | commit
  | tree
  | blob
  | tag
deriving DecidableEq

/-- Raw byte strings (names, messages, blob contents) are lists of naturals. -/
abbrev Bytes := List Nat

/-- One child entry of a git tree object: name bytes, kind, child oid. -/
structure TreeEntryObj where
  name : Bytes
  kind : Option OType
  oid : Nat
deriving DecidableEq

/-- A git tree object: its oid and its ordered child entries. -/
structure TreeObj where
  oid : Nat
  entries : List TreeEntryObj
deriving DecidableEq

/-- A git commit object with the metadata fields read by the ingestor. -/
structure CommitObj where
  oid : Nat
  tree : Nat
  parents : List Nat
  message : Bytes
  authorName : Bytes
  authorEmail : Bytes
  authorDate : Int
  committerName : Bytes
  committerEmail : Bytes
  committerDate : Int
deriving DecidableEq

/-- A git blob object: oid and raw content bytes. -/
structure BlobObj where
  oid : Nat
  content : Bytes
deriving DecidableEq

/-- A reference is either direct (carries a target oid) or symbolic. -/
inductive RefTarget
  | direct (oid : Nat)
  | symbolic
deriving DecidableEq

/-- A named reference of the repository. -/
structure RefObj where
  name : String
  target : RefTarget
deriving DecidableEq

/-- The repository object reader: pure lookup tables for commits, trees,
blobs and references. -/
structure Repo where
  commits : List CommitObj
  trees : List TreeObj
  blobs : List BlobObj
  refs : List RefObj
deriving DecidableEq

/-- Errors propagated by fallible operations.  `notFound` models a git2
lookup failure, `panicked` models a Rust panic, `outOfFuel` models
exceeding the recursion budget of the embedding. -/
inductive Err
  | notFound (what : String) (oid : Nat)
  | panicked (msg : String)
  | outOfFuel
deriving DecidableEq

/-- Decidable equality for `Except`, needed to evaluate run results on
concrete inputs. -/
instance {e a : Type} [DecidableEq e] [DecidableEq a] : DecidableEq (Except e a) :=
  fun x y =>
    match x, y with
    | .ok u, .ok v =>
      if h : u = v then isTrue (congrArg Except.ok h)
      else isFalse (fun hc => h (Except.ok.inj hc))
    | .error u, .error v =>
      if h : u = v then isTrue (congrArg Except.error h)
      else isFalse (fun hc => h (Except.error.inj hc))
    | .ok _, .error _ => isFalse (fun hc => Except.noConfusion hc)
    | .error _, .ok _ => isFalse (fun hc => Except.noConfusion hc)

def Repo.findCommit (repo : Repo) (oid : Nat) : Except Err CommitObj :=
  match repo.commits.find? (fun c => c.oid == oid) with
  | some c => .ok c
  | none => .error (.notFound "commit" oid)

def Repo.findTree (repo : Repo) (oid : Nat) : Except Err TreeObj :=
  match repo.trees.find? (fun t => t.oid == oid) with
  | some t => .ok t
  | none => .error (.notFound "tree" oid)

def Repo.findBlob (repo : Repo) (oid : Nat) : Except Err BlobObj :=
  match repo.blobs.find? (fun b => b.oid == oid) with
  | some b => .ok b
  | none => .error (.notFound "blob" oid)

/-- The parent oids of a commit, empty when the oid is not a commit of the
repository.  Used by the modelled revision walk. -/
def parentsOf (repo : Repo) (oid : Nat) : List Nat :=
  match repo.commits.find? (fun c => c.oid == oid) with
  | some c => c.parents
  | none => []

/-! ## Kind-tag codec (object_type_to_int / object_type_from_int) -/

/-- src/main.rs `object_type_to_int` (identical in src/ingest.rs). -/
def object_type_to_int (kind : Option OType) : Nat :=
  match kind with
  | none => 0
  | some .any => 1
  | some .commit => 2
  | some .tree => 3
  | some .blob => 4
  | some .tag => 5

/-- Result of decoding a kind tag: either a kind, or a Rust panic
(`panic!` aborts the process; it is not a recoverable error value). -/
inductive DecodeResult
  | ok (kind : Option OType)
  | panicked (msg : String)
deriving DecidableEq

/-- src/main.rs `object_type_from_int` (identical in src/ingest.rs).
The wildcard arm is `panic!("unknown")` in the source. -/
def object_type_from_int (val : Nat) : DecodeResult :=
  match val with
  | 0 => .ok none
  | 1 => .ok (some .any)
  | 2 => .ok (some .commit)
  | 3 => .ok (some .tree)
  | 4 => .ok (some .blob)
  | 5 => .ok (some .tag)
  | _ => .panicked "unknown"

/-! ## LZ4 model -/

/-- Modelled from the spec: the LZ4 codec is external to this repository.
The spec requires only that the whole blob content is compressed as a
single frame and that decompression recovers exactly the original bytes;
this stands in for that codec with a concrete invertible single-frame
coding (a length header followed by the payload). -/
def lz4Compress (content : Bytes) : Bytes :=
  content.length :: content

/-- Modelled from the spec: inverse of `lz4Compress`; fails on a
malformed frame. -/
def lz4Decompress (bs : Bytes) : Option Bytes :=
  match bs with
  | n :: rest => if rest.length = n then some rest else none
  | [] => none

/-- Modelled from the spec: the lz4 `Encoder` writes the compressed frame
of `content` into the destination buffer it was built over, appending to
whatever the buffer already holds; `finish` returns the buffer. -/
def lz4EncodeInto (dst : Bytes) (content : Bytes) : Bytes :=
  dst ++ lz4Compress content

/-! ## Store (the SQLite tables) -/

/-- A row of the `commits` table. -/
structure CommitRow where
  oid : Nat
  tree_oid : Nat
  message : Bytes
  parents : List Nat
  author_name : Bytes
  author_email : Bytes
  author_date : Int
  committer_name : Bytes
  committer_email : Bytes
  committer_date : Int
deriving DecidableEq

/-- A row of the `tree_entries` table (kind stored as its integer tag). -/
structure TreeEntryRow where
  tree_oid : Nat
  name : Bytes
  kind : Nat
  oid : Nat
deriving DecidableEq

/-- A row of the `blobs` table. -/
structure BlobRow where
  oid : Nat
  content_lz4 : Bytes
deriving DecidableEq

/-- A row of the `direct_refs` table. -/
structure DirectRefRow where
  repo_id : Nat
  name : String
  target_oid : Nat
deriving DecidableEq

/-- The durable relational store: the four tables of the schema. -/
structure Store where
  direct_refs : List DirectRefRow
  commits : List CommitRow
  tree_entries : List TreeEntryRow
  blobs : List BlobRow
deriving DecidableEq

/-- Modelled from the spec: the migration SQL is not under src/; per §6
`tree_entries` is unique on the whole (tree_oid, name, kind, oid) tuple,
so INSERT OR IGNORE adds the row exactly when that tuple is absent and
reports (via RETURNING) whether a row was added. -/
def Store.insertTreeEntry (s : Store) (r : TreeEntryRow) : Store × Bool :=
  if r ∈ s.tree_entries then (s, false)
  else ({ s with tree_entries := s.tree_entries ++ [r] }, true)

def Store.commitExists (s : Store) (oid : Nat) : Bool :=
  s.commits.any (fun r => r.oid == oid)

/-- Modelled from the spec: `commits` has primary key `oid` (§6), so
INSERT OR IGNORE adds the row exactly when the oid is absent. -/
def Store.insertCommit (s : Store) (r : CommitRow) : Store × Bool :=
  if s.commitExists r.oid then (s, false)
  else ({ s with commits := s.commits ++ [r] }, true)

/-- The `SELECT EXISTS (SELECT * FROM blobs WHERE oid = ?)` statement. -/
def Store.blobExists (s : Store) (oid : Nat) : Bool :=
  s.blobs.any (fun r => r.oid == oid)

/-- Modelled from the spec: `blobs` has primary key `oid` (§6), so
INSERT OR IGNORE adds the row exactly when the oid is absent. -/
def Store.insertBlob (s : Store) (r : BlobRow) : Store × Bool :=
  if s.blobExists r.oid then (s, false)
  else ({ s with blobs := s.blobs ++ [r] }, true)

/-! ## Observable store operations (the trace of reads and writes) -/

/-- One store read or write performed during ingestion, or one collaborator
read; used to state memoization (C1) and the main/ingest equivalence (C10). -/
inductive Ev
  | treeEntryInsert (tree_oid : Nat) (name : Bytes) (kind : Nat) (oid : Nat) (inserted : Bool)
  | findTree (oid : Nat)
  | blobExistsCheck (oid : Nat) (present : Bool)
  | findBlob (oid : Nat)
  | blobInsert (oid : Nat) (content_lz4 : Bytes)
  | findCommit (oid : Nat)
  | commitInsert (oid : Nat) (inserted : Bool)
deriving DecidableEq

/-- The tree_entries row the ingestor binds for entry `e` of tree `tid`. -/
def rowOfEntry (tid : Nat) (e : TreeEntryObj) : TreeEntryRow :=
  ⟨tid, e.name, object_type_to_int e.kind, e.oid⟩

/-- The commits row built from a commit object (parents serialized as the
ordered list of parent hashes, mirroring the fixed-stride concatenation). -/
def rowOfCommit (c : CommitObj) : CommitRow :=
  ⟨c.oid, c.tree, c.message, c.parents, c.authorName, c.authorEmail, c.authorDate,
   c.committerName, c.committerEmail, c.committerDate⟩

/-! ## Tree and commit ingestion, inline version (src/main.rs) -/

namespace Main

/-- The body of the per-entry loop of src/main.rs `insert_tree`, with the
recursive call abstracted as `recur`: conditional insert of the entry row
(RETURNING the row when actually inserted); when a row came back, decode
its kind tag and either recurse into a child tree, or run the
blob-existence check and compress-and-insert the blob when absent; when no
row came back, do nothing further. -/
def processEntryWith (repo : Repo)
    (recur : TreeObj → Store → Except Err (Store × List Ev))
    (tid : Nat) (e : TreeEntryObj) (s : Store) : Except Err (Store × List Ev) :=
  let row := rowOfEntry tid e
  let ins := s.insertTreeEntry row
  let ev := Ev.treeEntryInsert tid e.name row.kind e.oid ins.2
  if ins.2 then
    match object_type_from_int row.kind with
    | .panicked msg => .error (.panicked msg)
    | .ok k =>
      if k = some OType.tree then
        match repo.findTree e.oid with
        | .error er => .error er
        | .ok t =>
          match recur t ins.1 with
          | .error er => .error er
          | .ok (s2, evs) => .ok (s2, ev :: Ev.findTree e.oid :: evs)
      else if k = some OType.blob then
        let present := ins.1.blobExists e.oid
        if present then .ok (ins.1, [ev, Ev.blobExistsCheck e.oid true])
        else
          match repo.findBlob e.oid with
          | .error er => .error er
          | .ok b =>
            let dst := lz4EncodeInto [] b.content
            let ib := ins.1.insertBlob ⟨e.oid, dst⟩
            .ok (ib.1, [ev, Ev.blobExistsCheck e.oid false, Ev.findBlob e.oid,
                        Ev.blobInsert e.oid dst])
      else .ok (ins.1, [ev])
  else .ok (ins.1, [ev])

/-- The entry loop of src/main.rs `insert_tree` over the child entries of
tree `tid`, threading the store and collecting the trace. -/
def insertEntriesWith (repo : Repo)
    (recur : TreeObj → Store → Except Err (Store × List Ev))
    (tid : Nat) : List TreeEntryObj → Store → Except Err (Store × List Ev)
  | [], s => .ok (s, [])
  | e :: es, s =>
    match processEntryWith repo recur tid e s with
    | .error er => .error er
    | .ok (s1, evs1) =>
      match insertEntriesWith repo recur tid es s1 with
      | .error er => .error er
      | .ok (s2, evs2) => .ok (s2, evs1 ++ evs2)

/-- src/main.rs `insert_tree`, with an explicit recursion budget (the Rust
recursion is bounded by the depth of the tree graph). -/
def insert_tree (repo : Repo) : Nat → TreeObj → Store → Except Err (Store × List Ev)
  | 0, _, _ => .error .outOfFuel
  | fuel + 1, t, s => insertEntriesWith repo (insert_tree repo fuel) t.oid t.entries s

/-- The body of the per-commit loop in src/main.rs `main`: find the commit,
ingest its root tree via `insert_tree`, then insert-or-ignore the commit
row. -/
def addCommit (repo : Repo) (fuel : Nat) (oid : Nat) (s : Store) :
    Except Err (Store × List Ev) :=
  match repo.findCommit oid with
  | .error er => .error er
  | .ok c =>
    match repo.findTree c.tree with
    | .error er => .error er
    | .ok t =>
      match insert_tree repo fuel t s with
      | .error er => .error er
      | .ok (s1, evs) =>
        let ic := s1.insertCommit (rowOfCommit c)
        .ok (ic.1, Ev.findCommit oid :: Ev.findTree c.tree :: evs
                     ++ [Ev.commitInsert oid ic.2])

/-- The full per-commit loop of src/main.rs `main` over the walker output. -/
def ingestAll (repo : Repo) (fuel : Nat) : List Nat → Store → Except Err Store
  | [], s => .ok s
  | c :: cs, s =>
    match addCommit repo fuel c s with
    | .error er => .error er
    | .ok (s1, _) => ingestAll repo fuel cs s1

end Main

/-! ## Tree and commit ingestion, Ingestor version (src/ingest.rs) -/

namespace Ingest

/-- `Vec::clear` on the taken-out reuse buffer in
`Ingestor::insert_blob_content`. -/
def clearBuf (_buf : Bytes) : Bytes := []

/-- src/ingest.rs `Ingestor::blob_exists`. -/
def blob_exists (s : Store) (oid : Nat) : Bool := s.blobExists oid

/-- src/ingest.rs `Ingestor::insert_blob_content`: take the reuse buffer,
clear it, compress the blob content into it, insert the blob row, and
hand the buffer back. -/
def insert_blob_content (repo : Repo) (oid : Nat) (s : Store) (buf : Bytes) :
    Except Err (Store × Bytes × List Ev) :=
  let dst := clearBuf buf
  match repo.findBlob oid with
  | .error er => .error er
  | .ok b =>
    let dst2 := lz4EncodeInto dst b.content
    let ib := s.insertBlob ⟨oid, dst2⟩
    .ok (ib.1, dst2, [Ev.findBlob oid, Ev.blobInsert oid dst2])

/-- The body of the per-entry loop of src/ingest.rs `Ingestor::add_tree`,
with the recursive call abstracted as `recur`; identical control flow to
the inline version but additionally threading the reuse buffer. -/
def processEntryWith (repo : Repo)
    (recur : TreeObj → Store → Bytes → Except Err (Store × Bytes × List Ev))
    (tid : Nat) (e : TreeEntryObj) (s : Store) (buf : Bytes) :
    Except Err (Store × Bytes × List Ev) :=
  let row := rowOfEntry tid e
  let ins := s.insertTreeEntry row
  let ev := Ev.treeEntryInsert tid e.name row.kind e.oid ins.2
  if ins.2 then
    match object_type_from_int row.kind with
    | .panicked msg => .error (.panicked msg)
    | .ok k =>
      if k = some OType.tree then
        match repo.findTree e.oid with
        | .error er => .error er
        | .ok t =>
          match recur t ins.1 buf with
          | .error er => .error er
          | .ok (s2, buf2, evs) => .ok (s2, buf2, ev :: Ev.findTree e.oid :: evs)
      else if k = some OType.blob then
        let present := blob_exists ins.1 e.oid
        if present then .ok (ins.1, buf, [ev, Ev.blobExistsCheck e.oid true])
        else
          match insert_blob_content repo e.oid ins.1 buf with
          | .error er => .error er
          | .ok (s2, buf2, evs) =>
            .ok (s2, buf2, ev :: Ev.blobExistsCheck e.oid false :: evs)
      else .ok (ins.1, buf, [ev])
  else .ok (ins.1, buf, [ev])

/-- The entry loop of src/ingest.rs `Ingestor::add_tree`. -/
def insertEntriesWith (repo : Repo)
    (recur : TreeObj → Store → Bytes → Except Err (Store × Bytes × List Ev))
    (tid : Nat) : List TreeEntryObj → Store → Bytes →
    Except Err (Store × Bytes × List Ev)
  | [], s, buf => .ok (s, buf, [])
  | e :: es, s, buf =>
    match processEntryWith repo recur tid e s buf with
    | .error er => .error er
    | .ok (s1, buf1, evs1) =>
      match insertEntriesWith repo recur tid es s1 buf1 with
      | .error er => .error er
      | .ok (s2, buf2, evs2) => .ok (s2, buf2, evs1 ++ evs2)

/-- src/ingest.rs `Ingestor::add_tree`, with an explicit recursion budget. -/
def add_tree (repo : Repo) : Nat → TreeObj → Store → Bytes →
    Except Err (Store × Bytes × List Ev)
  | 0, _, _, _ => .error .outOfFuel
  | fuel + 1, t, s, buf => insertEntriesWith repo (add_tree repo fuel) t.oid t.entries s buf

/-- src/ingest.rs `Ingestor::add_commit`. -/
def add_commit (repo : Repo) (fuel : Nat) (oid : Nat) (s : Store) (buf : Bytes) :
    Except Err (Store × Bytes × List Ev) :=
  match repo.findCommit oid with
  | .error er => .error er
  | .ok c =>
    match repo.findTree c.tree with
    | .error er => .error er
    | .ok t =>
      match add_tree repo fuel t s buf with
      | .error er => .error er
      | .ok (s1, buf1, evs) =>
        let ic := s1.insertCommit (rowOfCommit c)
        .ok (ic.1, buf1, Ev.findCommit oid :: Ev.findTree c.tree :: evs
                           ++ [Ev.commitInsert oid ic.2])

end Ingest

/-- Forget the Ingestor's reuse buffer, for comparison with the inline
implementation. -/
def dropBuf (r : Except Err (Store × Bytes × List Ev)) : Except Err (Store × List Ev) :=
  match r with
  | .error er => .error er
  | .ok (s, _, evs) => .ok (s, evs)

/-! ## Reference differ (src/main.rs compare_refs) -/

/-- Modelled from the spec: libgit2's reference glob matching (fnmatch
style) is external to this repository; a `*` matches any character
sequence, every other character matches itself.  The program only ever
passes the pattern "refs/heads/*". -/
def globStar (matchTail : List Char → Bool) : List Char → Bool
  | [] => matchTail []
  | c :: ns => matchTail (c :: ns) || globStar matchTail ns

def globChars : List Char → List Char → Bool
  | [], name => name.isEmpty
  | '*' :: ps, name => globStar (globChars ps) name
  | _ :: _, [] => false
  | p :: ps, c :: ns => p == c && globChars ps ns

def matchesGlob (pat name : String) : Bool :=
  globChars pat.data name.data

/-- The live direct references matching the glob, in enumeration order:
the rows inserted into the temporary `new_refs` table (symbolic
references are skipped). -/
def liveDirectRefs (repo : Repo) (glob : String) : List (String × Nat) :=
  repo.refs.filterMap (fun r =>
    if matchesGlob glob r.name then
      match r.target with
      | .direct oid => some (r.name, oid)
      | .symbolic => none
    else none)

/-- The `old_refs` CTE: recorded targets of the given repository. -/
def recordedRefs (s : Store) (repoId : Nat) : List (String × Nat) :=
  s.direct_refs.filterMap (fun r =>
    if r.repo_id == repoId then some (r.name, r.target_oid) else none)

/-- One row of the diff produced by `compare_refs`. -/
structure RefDiff where
  name : String
  old_target : Option Nat
  new_target : Option Nat
deriving DecidableEq

/-- src/main.rs `compare_refs`: FULL JOIN of the recorded refs against the
live refs on name, keeping only rows whose live (new) target is non-null.
Note the SQL's WHERE clause is only `new_oid IS NOT NULL`; there is no
condition that the old and new targets differ. -/
def compare_refs (s : Store) (repoId : Nat) (repo : Repo) (glob : String) :
    List RefDiff :=
  let new_refs := liveDirectRefs repo glob
  let old_refs := recordedRefs s repoId
  new_refs.flatMap (fun nr =>
    match old_refs.filter (fun orr => orr.1 == nr.1) with
    | [] => [⟨nr.1, none, some nr.2⟩]
    | m => m.map (fun orr => ⟨nr.1, some orr.2, some nr.2⟩))

/-! ## Graph walker (modelled from the spec)

The revision walk is performed by libgit2 (`repo.revwalk()` with
`Sort::TOPOLOGICAL | Sort::REVERSE`, `push` on each new target and `hide`
on each old target), which is external to this repository.  Per the spec
(§4.2) it yields a deduplicated sequence of exactly the commits reachable
from some pushed target and not reachable from any hidden target, with
every commit's parents emitted before it.  It is modelled here as a
worklist reachability closure followed by a Kahn-style topological
emission. -/

/-- Reachability along parent edges (a commit reaches itself). -/
inductive Reaches (repo : Repo) : Nat → Nat → Prop
  | refl (x : Nat) : Reaches repo x x
  | tail {x y p : Nat} : Reaches repo x y → p ∈ parentsOf repo y → Reaches repo x p

/-- One closure step: add all parents of members not yet present. -/
def stepR (repo : Repo) (s : List Nat) : List Nat :=
  s ++ ((s.flatMap (parentsOf repo)).filter (fun p => decide (p ∉ s))).dedup

/-- Every oid the closure can ever mention: the roots together with every
commit oid and every parent oid of the repository. -/
def univList (repo : Repo) (roots : List Nat) : List Nat :=
  (roots ++ repo.commits.flatMap (fun c => c.oid :: c.parents)).dedup

/-- The set of oids reachable from `roots`: iterate the closure step one
more time than the universe size, which is enough to reach the fixpoint. -/
def reachSet (repo : Repo) (roots : List Nat) : List Nat :=
  (stepR repo)^[(univList repo roots).length + 1] roots.dedup

/-- The pending commits all of whose parents are outside `pending`
(those libgit2's topological sort may emit next). -/
def readyList (repo : Repo) (pending : List Nat) : List Nat :=
  pending.filter (fun c => decide (∀ p ∈ parentsOf repo c, p ∉ pending))

/-- Kahn-style topological emission, fuelled so that it computes by
structural recursion: in each round emit every pending commit whose
parents are all outside the pending set, then drop the emitted commits. -/
def kahnF (repo : Repo) : Nat → List Nat → List Nat
  | 0, _ => []
  | fuel + 1, pending =>
    let ready := readyList repo pending
    if ready = [] then []
    else ready ++ kahnF repo fuel (pending.filter (fun c => decide (c ∉ ready)))

/-- Each non-final round strictly shrinks the pending list, so one more
round than the pending length is always enough fuel. -/
def kahn (repo : Repo) (pending : List Nat) : List Nat :=
  kahnF repo (pending.length + 1) pending

/-- The modelled walker: roots are the pairs' new targets, hidden are the
pairs' old targets; emit the reachability difference in topological
(parents-first) order. -/
def walkSet (repo : Repo) (pairs : List (Option Nat × Option Nat)) : List Nat :=
  let news := pairs.filterMap (fun p => p.2)
  let olds := pairs.filterMap (fun p => p.1)
  (reachSet repo news).filter (fun x => decide (x ∉ reachSet repo olds))

def walkOutput (repo : Repo) (pairs : List (Option Nat × Option Nat)) : List Nat :=
  kahn repo (walkSet repo pairs)

/-! ## Orchestrator (src/main.rs main) -/

/-- The observables of one ingestion run: the printed ref diff, the
sequence of commits the walker yielded, and the durable store after
commit. -/
structure RunResult where
  diffs : List RefDiff
  walk : List Nat
  store : Store
deriving DecidableEq

def diffPairs (diffs : List RefDiff) : List (Option Nat × Option Nat) :=
  diffs.map (fun d => (d.old_target, d.new_target))

/-- One run of `main` after bootstrap: diff the refs (the temporary
`new_refs` table and the uncommitted inner transaction of `compare_refs`
leave no durable rows), seed the walker from the diff, then ingest every
walked commit inside the single transaction. -/
def runIngest (repo : Repo) (repoId : Nat) (fuel : Nat) (s0 : Store) :
    Except Err RunResult :=
  let diffs := compare_refs s0 repoId repo "refs/heads/*"
  let walk := walkOutput repo (diffPairs diffs)
  match Main.ingestAll repo fuel walk s0 with
  | .error er => .error er
  | .ok s1 => .ok ⟨diffs, walk, s1⟩

/-- The database connection: its durable (committed) store. -/
structure Conn where
  durable : Store
deriving DecidableEq

/-- Modelled from the spec: a rusqlite transaction.  The body's writes
become durable only through the final `commit`; a transaction dropped on
the error path is rolled back, leaving the durable store untouched. -/
def withTx (c : Conn) (body : Store → Except Err Store) : Conn × Except Err Unit :=
  match body c.durable with
  | .ok s => (⟨s⟩, .ok ())
  | .error er => (c, .error er)

/-- One run of `main` against a connection, making the transaction
boundary explicit: everything from `conn.transaction()` to `tx.commit()`
runs under `withTx`. -/
def runIngestConn (repo : Repo) (repoId : Nat) (fuel : Nat) (c : Conn) :
    Conn × Except Err Unit :=
  let diffs := compare_refs c.durable repoId repo "refs/heads/*"
  let walk := walkOutput repo (diffPairs diffs)
  withTx c (Main.ingestAll repo fuel walk)

/-- Two consecutive runs against an unchanged repository. -/
def runTwice (repo : Repo) (repoId : Nat) (fuel : Nat) (s0 : Store) :
    Except Err RunResult :=
  match runIngest repo repoId fuel s0 with
  | .error er => .error er
  | .ok r => runIngest repo repoId fuel r.store

/-! ## Predicates used in the statements and proofs -/

/-- Store growth: ingestion never touches `direct_refs` and only ever adds
rows to the other three tables. -/
def StoreSub (s s' : Store) : Prop :=
  s.direct_refs = s'.direct_refs ∧
  (∀ r ∈ s.commits, r ∈ s'.commits) ∧
  (∀ r ∈ s.tree_entries, r ∈ s'.tree_entries) ∧
  (∀ r ∈ s.blobs, r ∈ s'.blobs)

/-- Every blob row not already present in `base` holds exactly the
compressed content of the repository blob with its oid. -/
def BlobsOk (repo : Repo) (base s : Store) : Prop :=
  ∀ b ∈ s.blobs, b ∈ base.blobs ∨
    ∃ c, repo.findBlob b.oid = .ok c ∧ b.content_lz4 = lz4Compress c.content

/-- The trace of an `insert_tree` call on a fully-ingested tree: one
ignored conditional insert per entry and nothing else. -/
def ignoredEvs (t : TreeObj) : List Ev :=
  t.entries.map (fun e =>
    Ev.treeEntryInsert t.oid e.name (object_type_to_int e.kind) e.oid false)

/-- The recorded target for one (repo_id, name), when the recorded names
of the repository are unique. -/
def recordedLookup (s : Store) (repoId : Nat) (n : String) : Option Nat :=
  (recordedRefs s repoId).lookup n

/-! ## Basic lemmas about the codec, the LZ4 model and the store operations -/

lemma from_to_int (k : Option OType) :
    object_type_from_int (object_type_to_int k) = .ok k := by
  cases k with
  | none => rfl
  | some t => cases t <;> rfl

lemma lz4_roundtrip (c : Bytes) : lz4Decompress (lz4Compress c) = some c := by
  simp [lz4Compress, lz4Decompress]

lemma length_filter_lt_of_mem {α : Type} (p : α → Bool) :
    ∀ (l : List α) (x : α), x ∈ l → p x = false → (l.filter p).length < l.length := by
  intro l
  induction l with
  | nil => intro x hx; cases hx
  | cons a l ih =>
    intro x hx hpx
    rcases List.mem_cons.mp hx with h | h
    · subst h
      simp only [List.filter_cons, hpx]
      exact Nat.lt_succ_of_le (List.length_filter_le p l)
    · simp only [List.filter_cons]
      cases hpa : p a with
      | true => simpa using Nat.succ_lt_succ (ih x h hpx)
      | false => exact Nat.lt_succ_of_lt (ih x h hpx)

lemma insertTreeEntry_of_mem {s : Store} {r : TreeEntryRow} (h : r ∈ s.tree_entries) :
    s.insertTreeEntry r = (s, false) := by
  simp [Store.insertTreeEntry, h]

lemma mem_insertTreeEntry (s : Store) (r : TreeEntryRow) :
    r ∈ (s.insertTreeEntry r).1.tree_entries := by
  by_cases h : r ∈ s.tree_entries
  · simp [Store.insertTreeEntry, h]
  · simp [Store.insertTreeEntry, h]

lemma insertCommit_of_exists {s : Store} {r : CommitRow}
    (h : s.commitExists r.oid = true) : s.insertCommit r = (s, false) := by
  simp [Store.insertCommit, h]

lemma commitExists_iff {s : Store} {oid : Nat} :
    s.commitExists oid = true ↔ ∃ r ∈ s.commits, r.oid = oid := by
  simp [Store.commitExists]

lemma commitExists_insertCommit (s : Store) (r : CommitRow) :
    (s.insertCommit r).1.commitExists r.oid = true := by
  by_cases h : s.commitExists r.oid = true
  · simp [Store.insertCommit, h]
  · simp only [Store.insertCommit, h, Bool.false_eq_true, if_false]
    exact commitExists_iff.mpr ⟨r, by simp, rfl⟩

lemma blobExists_iff {s : Store} {oid : Nat} :
    s.blobExists oid = true ↔ ∃ r ∈ s.blobs, r.oid = oid := by
  simp [Store.blobExists]

lemma StoreSub.rfl (s : Store) : StoreSub s s :=
  ⟨Eq.refl _, fun _ h => h, fun _ h => h, fun _ h => h⟩

lemma StoreSub.trans {s1 s2 s3 : Store} (h1 : StoreSub s1 s2) (h2 : StoreSub s2 s3) :
    StoreSub s1 s3 :=
  ⟨h1.1.trans h2.1,
   fun r hr => h2.2.1 r (h1.2.1 r hr),
   fun r hr => h2.2.2.1 r (h1.2.2.1 r hr),
   fun r hr => h2.2.2.2 r (h1.2.2.2 r hr)⟩

lemma sub_insertTreeEntry (s : Store) (r : TreeEntryRow) :
    StoreSub s (s.insertTreeEntry r).1 := by
  by_cases h : r ∈ s.tree_entries
  · simp [Store.insertTreeEntry, h, StoreSub.rfl]
  · refine ⟨?_, ?_, ?_, ?_⟩ <;> simp [Store.insertTreeEntry, h]
    intro a ha
    exact Or.inl ha

lemma sub_insertCommit (s : Store) (r : CommitRow) :
    StoreSub s (s.insertCommit r).1 := by
  by_cases h : s.commitExists r.oid = true
  · simp [Store.insertCommit, h, StoreSub.rfl]
  · refine ⟨?_, ?_, ?_, ?_⟩ <;> simp [Store.insertCommit, h]
    intro a ha
    exact Or.inl ha

lemma sub_insertBlob (s : Store) (r : BlobRow) :
    StoreSub s (s.insertBlob r).1 := by
  by_cases h : s.blobExists r.oid = true
  · simp [Store.insertBlob, h, StoreSub.rfl]
  · refine ⟨?_, ?_, ?_, ?_⟩ <;> simp [Store.insertBlob, h]
    intro a ha
    exact Or.inl ha

lemma tree_entries_insertBlob (s : Store) (r : BlobRow) :
    (s.insertBlob r).1.tree_entries = s.tree_entries := by
  by_cases h : s.blobExists r.oid = true <;> simp [Store.insertBlob, h]

lemma blobs_insertTreeEntry (s : Store) (r : TreeEntryRow) :
    (s.insertTreeEntry r).1.blobs = s.blobs := by
  by_cases h : r ∈ s.tree_entries <;> simp [Store.insertTreeEntry, h]

lemma blobs_insertCommit (s : Store) (r : CommitRow) :
    (s.insertCommit r).1.blobs = s.blobs := by
  by_cases h : s.commitExists r.oid = true <;> simp [Store.insertCommit, h]

/-! ## Generic preservation through the inline ingestion functions -/

section Pres

variable {repo : Repo} {P : Store → Store → Prop}

lemma processEntry_pres
    (Ptrans : ∀ a b c : Store, P a b → P b c → P a c)
    (Hte : ∀ (s : Store) (r : TreeEntryRow), P s (s.insertTreeEntry r).1)
    (Hblob : ∀ (s : Store) (oid : Nat) (c : BlobObj), repo.findBlob oid = .ok c →
      P s (s.insertBlob ⟨oid, lz4EncodeInto [] c.content⟩).1)
    (recur : TreeObj → Store → Except Err (Store × List Ev))
    (Hrec : ∀ t s s' evs, recur t s = .ok (s', evs) → P s s')
    {tid : Nat} {e : TreeEntryObj} {s s' : Store} {evs : List Ev}
    (h : Main.processEntryWith repo recur tid e s = .ok (s', evs)) : P s s' := by
  have hkind : (rowOfEntry tid e).kind = object_type_to_int e.kind := rfl
  simp only [Main.processEntryWith, hkind, from_to_int] at h
  by_cases hins : (s.insertTreeEntry (rowOfEntry tid e)).2 = true
  · simp only [hins, if_true] at h
    by_cases htree : e.kind = some OType.tree
    · simp only [htree, if_true] at h
      cases hft : repo.findTree e.oid with
      | error er => simp only [hft] at h; cases h
      | ok t =>
        simp only [hft] at h
        cases hrec : recur t (s.insertTreeEntry (rowOfEntry tid e)).1 with
        | error er => simp only [hrec] at h; cases h
        | ok pr =>
          obtain ⟨s2, evs2⟩ := pr
          simp only [hrec, Except.ok.injEq, Prod.mk.injEq] at h
          rcases h with ⟨rfl, -⟩
          exact Ptrans _ _ _ (Hte s _) (Hrec t _ _ _ hrec)
    · by_cases hblob : e.kind = some OType.blob
      · simp only [htree, hblob, if_false, if_true] at h
        by_cases hex : (s.insertTreeEntry (rowOfEntry tid e)).1.blobExists e.oid = true
        · simp only [hex, if_true, Except.ok.injEq, Prod.mk.injEq] at h
          rcases h with ⟨rfl, -⟩
          exact Hte s _
        · simp only [hex, if_false] at h
          cases hfb : repo.findBlob e.oid with
          | error er => simp only [hfb] at h; cases h
          | ok b =>
            simp only [hfb, Except.ok.injEq, Prod.mk.injEq] at h
            rcases h with ⟨rfl, -⟩
            exact Ptrans _ _ _ (Hte s _) (Hblob _ e.oid b hfb)
      · simp only [htree, hblob, if_false, Except.ok.injEq, Prod.mk.injEq] at h
        rcases h with ⟨rfl, -⟩
        exact Hte s _
  · simp only [hins, if_false, Except.ok.injEq, Prod.mk.injEq] at h
    rcases h with ⟨rfl, -⟩
    exact Hte s _

lemma insertEntries_pres
    (Prefl : ∀ s, P s s)
    (Ptrans : ∀ a b c : Store, P a b → P b c → P a c)
    (Hte : ∀ (s : Store) (r : TreeEntryRow), P s (s.insertTreeEntry r).1)
    (Hblob : ∀ (s : Store) (oid : Nat) (c : BlobObj), repo.findBlob oid = .ok c →
      P s (s.insertBlob ⟨oid, lz4EncodeInto [] c.content⟩).1)
    (recur : TreeObj → Store → Except Err (Store × List Ev))
    (Hrec : ∀ t s s' evs, recur t s = .ok (s', evs) → P s s')
    (tid : Nat) :
    ∀ (es : List TreeEntryObj) (s s' : Store) (evs : List Ev),
      Main.insertEntriesWith repo recur tid es s = .ok (s', evs) → P s s' := by
  intro es
  induction es with
  | nil =>
    intro s s' evs h
    simp only [Main.insertEntriesWith, Except.ok.injEq, Prod.mk.injEq] at h
    rcases h with ⟨rfl, -⟩
    exact Prefl s
  | cons e es ih =>
    intro s s' evs h
    simp only [Main.insertEntriesWith] at h
    cases hpe : Main.processEntryWith repo recur tid e s with
    | error er => simp only [hpe] at h; cases h
    | ok pr =>
      obtain ⟨s1, evs1⟩ := pr
      simp only [hpe] at h
      cases hrest : Main.insertEntriesWith repo recur tid es s1 with
      | error er => simp only [hrest] at h; cases h
      | ok pr2 =>
        obtain ⟨s2, evs2⟩ := pr2
        simp only [hrest, Except.ok.injEq, Prod.mk.injEq] at h
        rcases h with ⟨rfl, -⟩
        exact Ptrans s s1 _ (processEntry_pres Ptrans Hte Hblob recur Hrec hpe)
          (ih _ _ _ hrest)

lemma insert_tree_pres
    (Prefl : ∀ s, P s s)
    (Ptrans : ∀ a b c : Store, P a b → P b c → P a c)
    (Hte : ∀ (s : Store) (r : TreeEntryRow), P s (s.insertTreeEntry r).1)
    (Hblob : ∀ (s : Store) (oid : Nat) (c : BlobObj), repo.findBlob oid = .ok c →
      P s (s.insertBlob ⟨oid, lz4EncodeInto [] c.content⟩).1) :
    ∀ (fuel : Nat) (t : TreeObj) (s s' : Store) (evs : List Ev),
      Main.insert_tree repo fuel t s = .ok (s', evs) → P s s' := by
  intro fuel
  induction fuel with
  | zero => intro t s s' evs h; cases h
  | succ fuel ih =>
    intro t s s' evs h
    exact insertEntries_pres Prefl Ptrans Hte Hblob (Main.insert_tree repo fuel)
      (fun t s s' evs hr => ih t s s' evs hr) t.oid t.entries s s' evs h

lemma addCommit_pres
    (Prefl : ∀ s, P s s)
    (Ptrans : ∀ a b c : Store, P a b → P b c → P a c)
    (Hte : ∀ (s : Store) (r : TreeEntryRow), P s (s.insertTreeEntry r).1)
    (Hblob : ∀ (s : Store) (oid : Nat) (c : BlobObj), repo.findBlob oid = .ok c →
      P s (s.insertBlob ⟨oid, lz4EncodeInto [] c.content⟩).1)
    (Hcm : ∀ (s : Store) (r : CommitRow), P s (s.insertCommit r).1)
    {fuel oid : Nat} {s s' : Store} {evs : List Ev}
    (h : Main.addCommit repo fuel oid s = .ok (s', evs)) : P s s' := by
  simp only [Main.addCommit] at h
  cases hfc : repo.findCommit oid with
  | error er => simp only [hfc] at h; cases h
  | ok c =>
    simp only [hfc] at h
    cases hft : repo.findTree c.tree with
    | error er => simp only [hft] at h; cases h
    | ok t =>
      simp only [hft] at h
      cases hit : Main.insert_tree repo fuel t s with
      | error er => simp only [hit] at h; cases h
      | ok pr =>
        obtain ⟨s1, evs1⟩ := pr
        simp only [hit, Except.ok.injEq, Prod.mk.injEq] at h
        rcases h with ⟨rfl, -⟩
        exact Ptrans s s1 _ (insert_tree_pres Prefl Ptrans Hte Hblob fuel t s s1 evs1 hit)
          (Hcm s1 _)

lemma ingestAll_pres
    (Prefl : ∀ s, P s s)
    (Ptrans : ∀ a b c : Store, P a b → P b c → P a c)
    (Hte : ∀ (s : Store) (r : TreeEntryRow), P s (s.insertTreeEntry r).1)
    (Hblob : ∀ (s : Store) (oid : Nat) (c : BlobObj), repo.findBlob oid = .ok c →
      P s (s.insertBlob ⟨oid, lz4EncodeInto [] c.content⟩).1)
    (Hcm : ∀ (s : Store) (r : CommitRow), P s (s.insertCommit r).1)
    (fuel : Nat) :
    ∀ (walk : List Nat) (s s' : Store),
      Main.ingestAll repo fuel walk s = .ok s' → P s s' := by
  intro walk
  induction walk with
  | nil =>
    intro s s' h
    simp only [Main.ingestAll, Except.ok.injEq] at h
    subst h
    exact Prefl s
  | cons c cs ih =>
    intro s s' h
    simp only [Main.ingestAll] at h
    cases hac : Main.addCommit repo fuel c s with
    | error er => simp only [hac] at h; cases h
    | ok pr =>
      obtain ⟨s1, evs1⟩ := pr
      simp only [hac] at h
      exact Ptrans s s1 _ (addCommit_pres Prefl Ptrans Hte Hblob Hcm hac)
        (ih _ _ h)

end Pres

/-! ## Instantiations: store growth and the blob-content invariant -/

lemma insert_tree_mono {repo : Repo} {fuel : Nat} {t : TreeObj} {s s' : Store}
    {evs : List Ev} (h : Main.insert_tree repo fuel t s = .ok (s', evs)) :
    StoreSub s s' :=
  insert_tree_pres StoreSub.rfl (fun _ _ _ => StoreSub.trans) sub_insertTreeEntry
    (fun s oid c _ => sub_insertBlob s ⟨oid, lz4EncodeInto [] c.content⟩)
    fuel t s s' evs h

lemma addCommit_mono {repo : Repo} {fuel oid : Nat} {s s' : Store} {evs : List Ev}
    (h : Main.addCommit repo fuel oid s = .ok (s', evs)) : StoreSub s s' :=
  addCommit_pres StoreSub.rfl (fun _ _ _ => StoreSub.trans) sub_insertTreeEntry
    (fun s oid c _ => sub_insertBlob s ⟨oid, lz4EncodeInto [] c.content⟩)
    sub_insertCommit h

lemma ingestAll_mono {repo : Repo} {fuel : Nat} {walk : List Nat} {s s' : Store}
    (h : Main.ingestAll repo fuel walk s = .ok s') : StoreSub s s' :=
  ingestAll_pres StoreSub.rfl (fun _ _ _ => StoreSub.trans) sub_insertTreeEntry
    (fun s oid c _ => sub_insertBlob s ⟨oid, lz4EncodeInto [] c.content⟩)
    sub_insertCommit fuel walk s s' h

lemma blobsOk_insertBlob {repo : Repo} {base s : Store} {oid : Nat} {c : BlobObj}
    (hfind : repo.findBlob oid = .ok c) (hb : BlobsOk repo base s) :
    BlobsOk repo base (s.insertBlob ⟨oid, lz4EncodeInto [] c.content⟩).1 := by
  by_cases hex : s.blobExists oid = true
  · simpa [Store.insertBlob, hex] using hb
  · intro b hmem
    simp only [Store.insertBlob, hex, Bool.false_eq_true, if_false,
      List.mem_append, List.mem_singleton] at hmem
    rcases hmem with hmem | rfl
    · exact hb b hmem
    · exact Or.inr ⟨c, hfind, by simp [lz4EncodeInto, lz4Compress]⟩

lemma ingestAll_blobsOk {repo : Repo} {fuel : Nat} {walk : List Nat} {s s' : Store}
    (h : Main.ingestAll repo fuel walk s = .ok s') {base : Store}
    (hb : BlobsOk repo base s) : BlobsOk repo base s' := by
  refine @ingestAll_pres repo (fun a b => BlobsOk repo base a → BlobsOk repo base b)
    (fun _ hx => hx) (fun _ _ _ hab hbc hx => hbc (hab hx))
    (fun s r hx => by simpa [BlobsOk, blobs_insertTreeEntry] using hx)
    (fun s oid c hfind hx => blobsOk_insertBlob hfind hx)
    (fun s r hx => by simpa [BlobsOk, blobs_insertCommit] using hx)
    fuel walk s s' h hb

/-! ## Establishment: rows written by the ingestor are present afterwards -/

lemma insertEntries_mono {repo : Repo}
    (recur : TreeObj → Store → Except Err (Store × List Ev))
    (Hrec : ∀ t s s' evs, recur t s = .ok (s', evs) → StoreSub s s')
    {tid : Nat} {es : List TreeEntryObj} {s s' : Store} {evs : List Ev}
    (h : Main.insertEntriesWith repo recur tid es s = .ok (s', evs)) : StoreSub s s' :=
  insertEntries_pres StoreSub.rfl (fun _ _ _ => StoreSub.trans) sub_insertTreeEntry
    (fun s oid c _ => sub_insertBlob s ⟨oid, lz4EncodeInto [] c.content⟩)
    recur Hrec tid es s s' evs h

lemma processEntry_row {repo : Repo}
    (recur : TreeObj → Store → Except Err (Store × List Ev))
    (Hrec : ∀ t s s' evs, recur t s = .ok (s', evs) → StoreSub s s')
    {tid : Nat} {e : TreeEntryObj} {s s' : Store} {evs : List Ev}
    (h : Main.processEntryWith repo recur tid e s = .ok (s', evs)) :
    rowOfEntry tid e ∈ s'.tree_entries := by
  have hmem0 := mem_insertTreeEntry s (rowOfEntry tid e)
  have hkind : (rowOfEntry tid e).kind = object_type_to_int e.kind := rfl
  simp only [Main.processEntryWith, hkind, from_to_int] at h
  by_cases hins : (s.insertTreeEntry (rowOfEntry tid e)).2 = true
  · simp only [hins, if_true] at h
    by_cases htree : e.kind = some OType.tree
    · simp only [htree, if_true] at h
      cases hft : repo.findTree e.oid with
      | error er => simp only [hft] at h; cases h
      | ok t =>
        simp only [hft] at h
        cases hrec : recur t (s.insertTreeEntry (rowOfEntry tid e)).1 with
        | error er => simp only [hrec] at h; cases h
        | ok pr =>
          obtain ⟨s2, evs2⟩ := pr
          simp only [hrec, Except.ok.injEq, Prod.mk.injEq] at h
          rcases h with ⟨rfl, -⟩
          exact (Hrec t _ _ _ hrec).2.2.1 _ hmem0
    · by_cases hblob : e.kind = some OType.blob
      · simp only [htree, hblob, if_false, if_true] at h
        by_cases hex : (s.insertTreeEntry (rowOfEntry tid e)).1.blobExists e.oid = true
        · simp only [hex, if_true, Except.ok.injEq, Prod.mk.injEq] at h
          rcases h with ⟨rfl, -⟩
          exact hmem0
        · simp only [hex, if_false] at h
          cases hfb : repo.findBlob e.oid with
          | error er => simp only [hfb] at h; cases h
          | ok b =>
            simp only [hfb, Except.ok.injEq, Prod.mk.injEq] at h
            rcases h with ⟨rfl, -⟩
            exact (sub_insertBlob _ _).2.2.1 _ hmem0
      · simp only [htree, hblob, if_false, Except.ok.injEq, Prod.mk.injEq] at h
        rcases h with ⟨rfl, -⟩
        exact hmem0
  · simp only [hins, if_false, Except.ok.injEq, Prod.mk.injEq] at h
    rcases h with ⟨rfl, -⟩
    exact hmem0

lemma insertEntries_rows {repo : Repo}
    (recur : TreeObj → Store → Except Err (Store × List Ev))
    (Hrec : ∀ t s s' evs, recur t s = .ok (s', evs) → StoreSub s s')
    (tid : Nat) :
    ∀ (es : List TreeEntryObj) (s s' : Store) (evs : List Ev),
      Main.insertEntriesWith repo recur tid es s = .ok (s', evs) →
      ∀ e ∈ es, rowOfEntry tid e ∈ s'.tree_entries := by
  intro es
  induction es with
  | nil => intro s s' evs h e he; cases he
  | cons e0 es ih =>
    intro s s' evs h e he
    simp only [Main.insertEntriesWith] at h
    cases hpe : Main.processEntryWith repo recur tid e0 s with
    | error er => simp only [hpe] at h; cases h
    | ok pr =>
      obtain ⟨s1, evs1⟩ := pr
      simp only [hpe] at h
      cases hrest : Main.insertEntriesWith repo recur tid es s1 with
      | error er => simp only [hrest] at h; cases h
      | ok pr2 =>
        obtain ⟨s2, evs2⟩ := pr2
        simp only [hrest, Except.ok.injEq, Prod.mk.injEq] at h
        rcases h with ⟨rfl, -⟩
        rcases List.mem_cons.mp he with rfl | he'
        · exact (insertEntries_mono recur Hrec hrest).2.2.1 _
            (processEntry_row recur Hrec hpe)
        · exact ih s1 _ _ hrest e he'

lemma insert_tree_rows {repo : Repo} {fuel : Nat} {t : TreeObj} {s s' : Store}
    {evs : List Ev} (h : Main.insert_tree repo (fuel + 1) t s = .ok (s', evs)) :
    ∀ e ∈ t.entries, rowOfEntry t.oid e ∈ s'.tree_entries := by
  exact insertEntries_rows (Main.insert_tree repo fuel)
    (fun t s s' evs hr => insert_tree_mono hr) t.oid t.entries s s' evs h

lemma addCommit_post {repo : Repo} {fuel oid : Nat} {s s' : Store} {evs : List Ev}
    (h : Main.addCommit repo fuel oid s = .ok (s', evs)) :
    ∃ co t, repo.findCommit oid = .ok co ∧ repo.findTree co.tree = .ok t ∧
      (∀ e ∈ t.entries, rowOfEntry t.oid e ∈ s'.tree_entries) ∧
      s'.commitExists co.oid = true := by
  simp only [Main.addCommit] at h
  cases hfc : repo.findCommit oid with
  | error er => simp only [hfc] at h; cases h
  | ok c =>
    simp only [hfc] at h
    cases hft : repo.findTree c.tree with
    | error er => simp only [hft] at h; cases h
    | ok t =>
      simp only [hft] at h
      cases hit : Main.insert_tree repo fuel t s with
      | error er => simp only [hit] at h; cases h
      | ok pr =>
        obtain ⟨s1, evs1⟩ := pr
        simp only [hit, Except.ok.injEq, Prod.mk.injEq] at h
        rcases h with ⟨rfl, -⟩
        refine ⟨c, t, rfl, hft, ?_, ?_⟩
        · cases fuel with
          | zero => cases hit
          | succ fuel =>
            intro e he
            exact (sub_insertCommit s1 (rowOfCommit c)).2.2.1 _
              (insert_tree_rows hit e he)
        · exact commitExists_insertCommit s1 (rowOfCommit c)

lemma ingestAll_post {repo : Repo} {fuel : Nat} {s1 : Store} :
    ∀ (walk : List Nat) (s : Store), Main.ingestAll repo fuel walk s = .ok s1 →
      ∀ c ∈ walk, ∃ co t, repo.findCommit c = .ok co ∧
        repo.findTree co.tree = .ok t ∧
        (∀ e ∈ t.entries, rowOfEntry t.oid e ∈ s1.tree_entries) ∧
        s1.commitExists co.oid = true := by
  intro walk
  induction walk with
  | nil => intro s h c hc; cases hc
  | cons c0 cs ih =>
    intro s h c hc
    simp only [Main.ingestAll] at h
    cases hac : Main.addCommit repo fuel c0 s with
    | error er => simp only [hac] at h; cases h
    | ok pr =>
      obtain ⟨s', evs⟩ := pr
      simp only [hac] at h
      rcases List.mem_cons.mp hc with rfl | hc'
      · obtain ⟨co, t, hfc, hft, hrows, hcm⟩ := addCommit_post hac
        have hsub : StoreSub s' s1 := ingestAll_mono h
        refine ⟨co, t, hfc, hft, fun e he => hsub.2.2.1 _ (hrows e he), ?_⟩
        obtain ⟨r, hr, hoid⟩ := commitExists_iff.mp hcm
        exact commitExists_iff.mpr ⟨r, hsub.2.1 _ hr, hoid⟩
      · exact ih s' h c hc'

/-! ## No-op lemmas: re-running over already-ingested data changes nothing -/

lemma processEntry_noop {repo : Repo}
    (recur : TreeObj → Store → Except Err (Store × List Ev))
    {tid : Nat} {e : TreeEntryObj} {s : Store}
    (hmem : rowOfEntry tid e ∈ s.tree_entries) :
    Main.processEntryWith repo recur tid e s =
      .ok (s, [Ev.treeEntryInsert tid e.name (object_type_to_int e.kind) e.oid false]) := by
  have hkind : (rowOfEntry tid e).kind = object_type_to_int e.kind := rfl
  simp [Main.processEntryWith, hkind, insertTreeEntry_of_mem hmem]

lemma insertEntries_noop {repo : Repo}
    (recur : TreeObj → Store → Except Err (Store × List Ev)) (tid : Nat) :
    ∀ (es : List TreeEntryObj) (s : Store),
      (∀ e ∈ es, rowOfEntry tid e ∈ s.tree_entries) →
      Main.insertEntriesWith repo recur tid es s =
        .ok (s, es.map fun e =>
          Ev.treeEntryInsert tid e.name (object_type_to_int e.kind) e.oid false) := by
  intro es
  induction es with
  | nil => intro s h; rfl
  | cons e es ih =>
    intro s h
    simp only [Main.insertEntriesWith,
      processEntry_noop recur (h e (List.mem_cons_self e es)),
      ih s (fun e' he' => h e' (List.mem_cons_of_mem e he')), List.map_cons]
    rfl

lemma insert_tree_noop {repo : Repo} {fuel : Nat} {t : TreeObj} {s : Store}
    (h : ∀ e ∈ t.entries, rowOfEntry t.oid e ∈ s.tree_entries) :
    Main.insert_tree repo (fuel + 1) t s = .ok (s, ignoredEvs t) := by
  exact insertEntries_noop (Main.insert_tree repo fuel) t.oid t.entries s h

lemma addCommit_noop {repo : Repo} {fuel oid : Nat} {s : Store} {co : CommitObj}
    {t : TreeObj} (hfc : repo.findCommit oid = .ok co)
    (hft : repo.findTree co.tree = .ok t)
    (hte : ∀ e ∈ t.entries, rowOfEntry t.oid e ∈ s.tree_entries)
    (hcm : s.commitExists co.oid = true) :
    Main.addCommit repo (fuel + 1) oid s =
      .ok (s, Ev.findCommit oid :: Ev.findTree co.tree ::
        ignoredEvs t ++ [Ev.commitInsert oid false]) := by
  have hcm' : s.commitExists (rowOfCommit co).oid = true := hcm
  simp [Main.addCommit, hfc, hft, insert_tree_noop hte, insertCommit_of_exists hcm']

lemma ingestAll_noop {repo : Repo} {fuel : Nat} {s1 : Store} :
    ∀ (walk : List Nat) (s : Store), Main.ingestAll repo fuel walk s = .ok s1 →
      Main.ingestAll repo fuel walk s1 = .ok s1 := by
  intro walk
  induction walk with
  | nil => intro s h; rfl
  | cons c cs ih =>
    intro s h
    simp only [Main.ingestAll] at h ⊢
    cases hac : Main.addCommit repo fuel c s with
    | error er => simp only [hac] at h; cases h
    | ok pr =>
      obtain ⟨s', evs⟩ := pr
      simp only [hac] at h
      obtain ⟨co, t, hfc, hft, hrows, hcm⟩ := addCommit_post hac
      have hsub : StoreSub s' s1 := ingestAll_mono h
      have hrows1 : ∀ e ∈ t.entries, rowOfEntry t.oid e ∈ s1.tree_entries :=
        fun e he => hsub.2.2.1 _ (hrows e he)
      have hcm1 : s1.commitExists co.oid = true := by
        obtain ⟨r, hr, hoid⟩ := commitExists_iff.mp hcm
        exact commitExists_iff.mpr ⟨r, hsub.2.1 _ hr, hoid⟩
      cases fuel with
      | zero =>
        exfalso
        simp only [Main.addCommit, hfc, hft, Main.insert_tree] at hac
        cases hac
      | succ fuel =>
        simp only [addCommit_noop hfc hft hrows1 hcm1]
        exact ih s1 (ih s' h)

/-! ## Reference differ lemmas -/

lemma filter_key_eq_lookup :
    ∀ {l : List (String × Nat)}, ((l.map Prod.fst).Nodup) → ∀ (n : String),
      l.filter (fun p => p.1 == n) =
        match l.lookup n with
        | none => []
        | some v => [(n, v)] := by
  intro l
  induction l with
  | nil => intro _ n; rfl
  | cons p l ih =>
    intro hnd n
    obtain ⟨k, v⟩ := p
    simp only [List.map_cons, List.nodup_cons] at hnd
    by_cases hk : k = n
    · subst hk
      have hrest : l.filter (fun p => p.1 == k) = [] := by
        rw [List.filter_eq_nil_iff]
        intro p hp
        have hne : p.1 ≠ k := fun he => hnd.1 (he ▸ List.mem_map_of_mem Prod.fst hp)
        simp [hne]
      simp [List.filter_cons, List.lookup, hrest]
    · have hnk : ¬ n = k := fun h => hk h.symm
      have h1 : (k == n) = false := beq_eq_false_iff_ne.mpr hk
      have h2 : (n == k) = false := beq_eq_false_iff_ne.mpr hnk
      simp [List.filter_cons, List.lookup, h1, h2, ih hnd.2 n]

/-! ## Claim theorems -/

/-- Claim C1: the conditional insert memoizes tree ingestion.  For an entry
whose (tree_oid, name, kind, oid) row already exists, the ingestor does
nothing further — the store is unchanged and no recursion, blob-existence
check or blob fetch happens (the trace is just the ignored insert); hence a
tree all of whose entry rows are present (one that was already fully
ingested, reached again from any path) is not re-walked at all. -/
theorem claim_C1 (repo : Repo) :
    (∀ (recur : TreeObj → Store → Except Err (Store × List Ev)) (tid : Nat)
       (e : TreeEntryObj) (s : Store), rowOfEntry tid e ∈ s.tree_entries →
       Main.processEntryWith repo recur tid e s =
         .ok (s, [Ev.treeEntryInsert tid e.name (object_type_to_int e.kind) e.oid false])) ∧
    (∀ (fuel : Nat) (t : TreeObj) (s : Store),
       (∀ e ∈ t.entries, rowOfEntry t.oid e ∈ s.tree_entries) →
       Main.insert_tree repo (fuel + 1) t s = .ok (s, ignoredEvs t)) :=
  ⟨fun recur _ _ _ hmem => processEntry_noop recur hmem,
   fun _ _ _ h => insert_tree_noop h⟩

/-- Witness for C1: a tree with one blob entry whose row is already stored
is processed with no store change and only the ignored insert in the trace. -/
theorem claim_C1_witness :
    Main.insert_tree ⟨[], [], [], []⟩ 1 ⟨10, [⟨[102], some OType.blob, 20⟩]⟩
        ⟨[], [], [⟨10, [102], 4, 20⟩], []⟩ =
      .ok (⟨[], [], [⟨10, [102], 4, 20⟩], []⟩,
        ignoredEvs ⟨10, [⟨[102], some OType.blob, 20⟩]⟩) :=
  (claim_C1 ⟨[], [], [], []⟩).2 0 ⟨10, [⟨[102], some OType.blob, 20⟩]⟩
    ⟨[], [], [⟨10, [102], 4, 20⟩], []⟩ (by decide)

/-- Claim C8 counterexample: decoding the out-of-range tag 6 does not
produce a typed decoding error — the source hits `panic!("unknown")`,
aborting the process. -/
theorem claim_C8_counterexample :
    object_type_from_int 6 = DecodeResult.panicked "unknown" := rfl

/-- Claim C8 (amended): the kind-tag codec maps None/Any/Commit/Tree/Blob/Tag
to 0/1/2/3/4/5 exactly as the table specifies and decoding inverts encoding,
but decoding any tag value outside 0..=5 panics with message "unknown"
(terminating the process abruptly) rather than returning a typed decoding
error. -/
theorem claim_C8_amended :
    (object_type_to_int none = 0 ∧ object_type_to_int (some .any) = 1 ∧
     object_type_to_int (some .commit) = 2 ∧ object_type_to_int (some .tree) = 3 ∧
     object_type_to_int (some .blob) = 4 ∧ object_type_to_int (some .tag) = 5) ∧
    (∀ k, object_type_from_int (object_type_to_int k) = .ok k) ∧
    (∀ v, 5 < v → object_type_from_int v = .panicked "unknown") := by
  refine ⟨⟨rfl, rfl, rfl, rfl, rfl, rfl⟩, from_to_int, ?_⟩
  intro v hv
  obtain ⟨n, rfl⟩ := Nat.exists_eq_add_of_lt hv
  show object_type_from_int (5 + n + 1) = .panicked "unknown"
  have heq : 5 + n + 1 = n + 6 := by omega
  rw [heq]
  rfl

/-- Witness for C8 (amended) at the concrete out-of-range tag 7. -/
theorem claim_C8_witness : object_type_from_int 7 = DecodeResult.panicked "unknown" :=
  claim_C8_amended.2.2 7 (by decide)

/-- Claim C4: ingestion is atomic.  If any step inside the transaction
fails, the run propagates the error and the connection's durable store is
exactly what it was before the run — no partial state. -/
theorem claim_C4 (repo : Repo) (repoId fuel : Nat) (c c' : Conn) (e : Err)
    (h : runIngestConn repo repoId fuel c = (c', .error e)) : c' = c := by
  simp only [runIngestConn, withTx] at h
  cases hb : Main.ingestAll repo fuel
      (walkOutput repo (diffPairs (compare_refs c.durable repoId repo "refs/heads/*")))
      c.durable with
  | ok s =>
    simp only [hb, Prod.mk.injEq] at h
    cases h.2
  | error er =>
    simp only [hb, Prod.mk.injEq] at h
    exact h.1.symm

/-- Witness for C4: a run that fails reading a walked commit (the ref
points at an oid the repository cannot resolve) leaves the durable store
untouched. -/
theorem claim_C4_witness :
    (runIngestConn ⟨[], [], [], [⟨"refs/heads/m", RefTarget.direct 7⟩]⟩ 1 1
        ⟨⟨[], [], [], []⟩⟩).1 = ⟨⟨[], [], [], []⟩⟩ :=
  claim_C4 ⟨[], [], [], [⟨"refs/heads/m", RefTarget.direct 7⟩]⟩ 1 1
    ⟨⟨[], [], [], []⟩⟩ _ (Err.notFound "commit" 7) (by decide)

/-- Claim C7 counterexample: a successful run that emitted a diff (old
target 5, live target 6) leaves `direct_refs` still recording 5 — the
orchestrator never writes the new target back. -/
theorem claim_C7_counterexample :
    (runIngest ⟨[⟨6, 10, [5], [], [], [], 0, [], [], 0⟩], [⟨10, []⟩], [],
        [⟨"refs/heads/m", RefTarget.direct 6⟩]⟩ 1 2
        ⟨[⟨1, "refs/heads/m", 5⟩], [], [], []⟩).map
      (fun r => (r.diffs, r.store.direct_refs)) =
    .ok ([⟨"refs/heads/m", some 5, some 6⟩], [⟨1, "refs/heads/m", 5⟩]) := by decide

/-- Claim C7 (amended): the orchestrator performs no update of
`direct_refs` at all — after every successful run the recorded reference
targets are exactly what they were before the run, so a later run
recomputes the same diff. -/
theorem claim_C7_amended (repo : Repo) (repoId fuel : Nat) (s0 : Store)
    (r : RunResult) (h : runIngest repo repoId fuel s0 = .ok r) :
    r.store.direct_refs = s0.direct_refs := by
  simp only [runIngest] at h
  cases hb : Main.ingestAll repo fuel
      (walkOutput repo (diffPairs (compare_refs s0 repoId repo "refs/heads/*"))) s0 with
  | error er => simp only [hb] at h; cases h
  | ok s1 =>
    simp only [hb, Except.ok.injEq] at h
    subst h
    exact (ingestAll_mono hb).1.symm

/-- Witness for C7 (amended) on a trivial successful run. -/
theorem claim_C7_witness :
    (⟨[], [], ⟨[], [], [], []⟩⟩ : RunResult).store.direct_refs =
      (⟨[], [], [], []⟩ : Store).direct_refs :=
  claim_C7_amended ⟨[], [], [], []⟩ 1 0 ⟨[], [], [], []⟩
    ⟨[], [], ⟨[], [], [], []⟩⟩ (by decide)

/-- Claim C3 counterexample: a reference whose live target equals the
recorded target (both 5) still produces a diff row — the SQL filters only
on the live target being non-null, never on the targets differing. -/
theorem claim_C3_counterexample :
    compare_refs ⟨[⟨1, "refs/heads/m", 5⟩], [], [], []⟩ 1
        ⟨[], [], [], [⟨"refs/heads/m", RefTarget.direct 5⟩]⟩ "refs/heads/*" =
      [⟨"refs/heads/m", some 5, some 5⟩] := by decide

/-- Claim C3 (amended): the reference differ emits a row exactly for every
reference that matches the glob and currently has a live direct target —
including references whose live target equals the recorded one; the row
carries the recorded target (if any) as old_target and the live target as
new_target, and references present only in the recorded set (deleted)
produce no row. -/
theorem claim_C3_amended (s : Store) (repoId : Nat) (repo : Repo) (glob : String)
    (hnd : ((recordedRefs s repoId).map Prod.fst).Nodup) (d : RefDiff) :
    d ∈ compare_refs s repoId repo glob ↔
      ∃ noid, (d.name, noid) ∈ liveDirectRefs repo glob ∧
        d.new_target = some noid ∧ d.old_target = recordedLookup s repoId d.name := by
  simp only [compare_refs, List.mem_flatMap]
  constructor
  · rintro ⟨nr, hnr, hd⟩
    rw [filter_key_eq_lookup hnd nr.1] at hd
    cases hluk : (recordedRefs s repoId).lookup nr.1 with
    | none =>
      rw [hluk] at hd
      simp only [List.mem_singleton] at hd
      subst hd
      exact ⟨nr.2, by simpa using hnr, rfl, by simp [recordedLookup, hluk]⟩
    | some v =>
      rw [hluk] at hd
      simp only [List.map_cons, List.map_nil, List.mem_singleton] at hd
      subst hd
      exact ⟨nr.2, by simpa using hnr, rfl, by simp [recordedLookup, hluk]⟩
  · rintro ⟨noid, hlive, hnew, hold⟩
    refine ⟨(d.name, noid), hlive, ?_⟩
    rw [filter_key_eq_lookup hnd d.name]
    obtain ⟨dn, dold, dnew⟩ := d
    simp only at hnew hold ⊢
    subst hnew
    rw [recordedLookup] at hold
    cases hluk : (recordedRefs s repoId).lookup dn with
    | none => rw [hluk] at hold; subst hold; simp
    | some v => rw [hluk] at hold; subst hold; simp

/-! ## Equivalence of the Ingestor (src/ingest.rs) with the inline loop -/

lemma equiv_processEntry (repo : Repo)
    (recurI : TreeObj → Store → Bytes → Except Err (Store × Bytes × List Ev))
    (recurM : TreeObj → Store → Except Err (Store × List Ev))
    (Hrec : ∀ t s buf, dropBuf (recurI t s buf) = recurM t s)
    (tid : Nat) (e : TreeEntryObj) (s : Store) (buf : Bytes) :
    dropBuf (Ingest.processEntryWith repo recurI tid e s buf) =
      Main.processEntryWith repo recurM tid e s := by
  simp only [Ingest.processEntryWith, Main.processEntryWith]
  by_cases hins : (s.insertTreeEntry (rowOfEntry tid e)).2 = true
  · simp only [hins, if_true]
    cases hdec : object_type_from_int (rowOfEntry tid e).kind with
    | panicked msg => simp [dropBuf]
    | ok k =>
      by_cases htree : k = some OType.tree
      · simp only [htree, if_true]
        cases hft : repo.findTree e.oid with
        | error er => simp [dropBuf]
        | ok t =>
          have hrel := Hrec t (s.insertTreeEntry (rowOfEntry tid e)).1 buf
          cases hrecI : recurI t (s.insertTreeEntry (rowOfEntry tid e)).1 buf with
          | error er =>
            have hrecM : recurM t (s.insertTreeEntry (rowOfEntry tid e)).1 = .error er := by
              rw [hrecI] at hrel
              simpa [dropBuf] using hrel.symm
            simp [hrecI, hrecM, dropBuf]
          | ok pr =>
            obtain ⟨s2, buf2, evs2⟩ := pr
            have hrecM : recurM t (s.insertTreeEntry (rowOfEntry tid e)).1 = .ok (s2, evs2) := by
              rw [hrecI] at hrel
              simpa [dropBuf] using hrel.symm
            simp [hrecI, hrecM, dropBuf]
      · by_cases hblob : k = some OType.blob
        · simp only [htree, hblob, if_false, if_true]
          by_cases hex : (s.insertTreeEntry (rowOfEntry tid e)).1.blobExists e.oid = true
          · simp [Ingest.blob_exists, hex, dropBuf]
          · cases hfb : repo.findBlob e.oid with
            | error er =>
              simp [Ingest.blob_exists, hex, Ingest.insert_blob_content,
                Ingest.clearBuf, hfb, dropBuf]
            | ok b =>
              simp [Ingest.blob_exists, hex, Ingest.insert_blob_content,
                Ingest.clearBuf, hfb, dropBuf]
        · simp [htree, hblob, dropBuf]
  · simp [hins, dropBuf]

lemma equiv_insertEntries (repo : Repo)
    (recurI : TreeObj → Store → Bytes → Except Err (Store × Bytes × List Ev))
    (recurM : TreeObj → Store → Except Err (Store × List Ev))
    (Hrec : ∀ t s buf, dropBuf (recurI t s buf) = recurM t s) (tid : Nat) :
    ∀ (es : List TreeEntryObj) (s : Store) (buf : Bytes),
      dropBuf (Ingest.insertEntriesWith repo recurI tid es s buf) =
        Main.insertEntriesWith repo recurM tid es s := by
  intro es
  induction es with
  | nil => intro s buf; simp [Ingest.insertEntriesWith, Main.insertEntriesWith, dropBuf]
  | cons e es ih =>
    intro s buf
    simp only [Ingest.insertEntriesWith, Main.insertEntriesWith]
    have hpe := equiv_processEntry repo recurI recurM Hrec tid e s buf
    cases hpeI : Ingest.processEntryWith repo recurI tid e s buf with
    | error er =>
      have hpeM : Main.processEntryWith repo recurM tid e s = .error er := by
        rw [hpeI] at hpe
        simpa [dropBuf] using hpe.symm
      simp [hpeI, hpeM, dropBuf]
    | ok pr =>
      obtain ⟨s1, buf1, evs1⟩ := pr
      have hpeM : Main.processEntryWith repo recurM tid e s = .ok (s1, evs1) := by
        rw [hpeI] at hpe
        simpa [dropBuf] using hpe.symm
      have hrest := ih s1 buf1
      cases hrestI : Ingest.insertEntriesWith repo recurI tid es s1 buf1 with
      | error er =>
        have hrestM : Main.insertEntriesWith repo recurM tid es s1 = .error er := by
          rw [hrestI] at hrest
          simpa [dropBuf] using hrest.symm
        simp [hpeI, hpeM, hrestI, hrestM, dropBuf]
      | ok pr2 =>
        obtain ⟨s2, buf2, evs2⟩ := pr2
        have hrestM : Main.insertEntriesWith repo recurM tid es s1 = .ok (s2, evs2) := by
          rw [hrestI] at hrest
          simpa [dropBuf] using hrest.symm
        simp [hpeI, hpeM, hrestI, hrestM, dropBuf]

lemma equiv_tree (repo : Repo) :
    ∀ (fuel : Nat) (t : TreeObj) (s : Store) (buf : Bytes),
      dropBuf (Ingest.add_tree repo fuel t s buf) = Main.insert_tree repo fuel t s := by
  intro fuel
  induction fuel with
  | zero => intro t s buf; simp [Ingest.add_tree, Main.insert_tree, dropBuf]
  | succ fuel ih =>
    intro t s buf
    exact equiv_insertEntries repo (Ingest.add_tree repo fuel) (Main.insert_tree repo fuel)
      (fun t s buf => ih t s buf) t.oid t.entries s buf

/-- Witness for C3 (amended): the unchanged reference of the
counterexample is emitted, with old_target equal to the live target. -/
theorem claim_C3_witness :
    ((⟨"refs/heads/m", some 5, some 5⟩ : RefDiff) ∈
        compare_refs ⟨[⟨1, "refs/heads/m", 5⟩], [], [], []⟩ 1
          ⟨[], [], [], [⟨"refs/heads/m", RefTarget.direct 5⟩]⟩ "refs/heads/*" ↔
      ∃ noid, ((⟨"refs/heads/m", some 5, some 5⟩ : RefDiff).name, noid) ∈
          liveDirectRefs ⟨[], [], [], [⟨"refs/heads/m", RefTarget.direct 5⟩]⟩ "refs/heads/*" ∧
        (⟨"refs/heads/m", some 5, some 5⟩ : RefDiff).new_target = some noid ∧
        (⟨"refs/heads/m", some 5, some 5⟩ : RefDiff).old_target =
          recordedLookup ⟨[⟨1, "refs/heads/m", 5⟩], [], [], []⟩ 1
            (⟨"refs/heads/m", some 5, some 5⟩ : RefDiff).name) :=
  claim_C3_amended ⟨[⟨1, "refs/heads/m", 5⟩], [], [], []⟩ 1
    ⟨[], [], [], [⟨"refs/heads/m", RefTarget.direct 5⟩]⟩ "refs/heads/*"
    (by decide) ⟨"refs/heads/m", some 5, some 5⟩

/-! ## Graph walker: reachability closure correctness -/

lemma parentsOf_mem {repo : Repo} {c p : Nat} (h : p ∈ parentsOf repo c) :
    ∃ co ∈ repo.commits, co.oid = c ∧ p ∈ co.parents := by
  unfold parentsOf at h
  cases hfind : repo.commits.find? (fun co => co.oid == c) with
  | none => rw [hfind] at h; cases h
  | some co =>
    rw [hfind] at h
    exact ⟨co, List.mem_of_find?_eq_some hfind,
      by simpa using List.find?_some hfind, h⟩

lemma mem_stepR {repo : Repo} {s : List Nat} {x : Nat} :
    x ∈ stepR repo s ↔ x ∈ s ∨ ((∃ c ∈ s, x ∈ parentsOf repo c) ∧ x ∉ s) := by
  simp [stepR, List.mem_append, List.mem_dedup, List.mem_filter, List.mem_flatMap,
    decide_eq_true_eq]

lemma subset_stepR {repo : Repo} {s : List Nat} : ∀ x ∈ s, x ∈ stepR repo s :=
  fun _ hx => List.mem_append.mpr (Or.inl hx)

lemma stepR_nodup {repo : Repo} {s : List Nat} (h : s.Nodup) : (stepR repo s).Nodup := by
  refine List.Nodup.append h (List.nodup_dedup _) ?_
  rw [List.disjoint_left]
  intro a ha hmem
  rw [List.mem_dedup, List.mem_filter] at hmem
  exact (of_decide_eq_true hmem.2) ha

lemma stepR_subset_univ {repo : Repo} {roots s : List Nat}
    (h : ∀ x ∈ s, x ∈ univList repo roots) :
    ∀ x ∈ stepR repo s, x ∈ univList repo roots := by
  intro x hx
  rcases mem_stepR.mp hx with hx | ⟨⟨c, hc, hp⟩, -⟩
  · exact h x hx
  · obtain ⟨co, hco, -, hpco⟩ := parentsOf_mem hp
    unfold univList
    rw [List.mem_dedup, List.mem_append]
    exact Or.inr (List.mem_flatMap.mpr ⟨co, hco, List.mem_cons_of_mem _ hpco⟩)

lemma stepR_grow {repo : Repo} {s : List Nat} (h : stepR repo s ≠ s) :
    s.length + 1 ≤ (stepR repo s).length := by
  by_cases ht : ((s.flatMap (parentsOf repo)).filter (fun p => decide (p ∉ s))).dedup = []
  · exfalso
    apply h
    unfold stepR
    rw [ht, List.append_nil]
  · have h1 : 1 ≤ ((s.flatMap (parentsOf repo)).filter
        (fun p => decide (p ∉ s))).dedup.length :=
      Nat.one_le_iff_ne_zero.mpr (fun h0 => ht (List.length_eq_zero.mp h0))
    simp only [stepR, List.length_append]
    omega

lemma iter_chain (repo : Repo) (s0 : List Nat) :
    ∀ n, (∀ k < n, stepR repo ((stepR repo)^[k] s0) ≠ (stepR repo)^[k] s0) →
      s0.length + n ≤ ((stepR repo)^[n] s0).length := by
  intro n
  induction n with
  | zero => intro _; simp
  | succ n ih =>
    intro h
    have h1 := ih (fun k hk => h k (Nat.lt_succ_of_lt hk))
    have h2 := stepR_grow (h n (Nat.lt_succ_self n))
    rw [Function.iterate_succ_apply']
    omega

lemma iter_nodup {repo : Repo} {roots : List Nat} :
    ∀ n, ((stepR repo)^[n] roots.dedup).Nodup := by
  intro n
  induction n with
  | zero => exact List.nodup_dedup _
  | succ n ih => rw [Function.iterate_succ_apply']; exact stepR_nodup ih

lemma iter_univ {repo : Repo} {roots : List Nat} :
    ∀ n, ∀ x ∈ (stepR repo)^[n] roots.dedup, x ∈ univList repo roots := by
  intro n
  induction n with
  | zero =>
    intro x hx
    unfold univList
    rw [List.mem_dedup, List.mem_append]
    exact Or.inl (List.mem_dedup.mp hx)
  | succ n ih => rw [Function.iterate_succ_apply']; exact stepR_subset_univ ih

lemma iter_sub_zero {repo : Repo} {roots : List Nat} :
    ∀ n, ∀ x ∈ roots, x ∈ (stepR repo)^[n] roots.dedup := by
  intro n
  induction n with
  | zero => intro x hx; exact List.mem_dedup.mpr hx
  | succ n ih =>
    intro x hx
    rw [Function.iterate_succ_apply']
    exact subset_stepR _ (ih x hx)

lemma exists_iter_fix (repo : Repo) (roots : List Nat) :
    ∃ k ≤ (univList repo roots).length,
      stepR repo ((stepR repo)^[k] roots.dedup) = (stepR repo)^[k] roots.dedup := by
  by_contra hcon
  push_neg at hcon
  have hchain := iter_chain repo roots.dedup ((univList repo roots).length + 1)
    (fun k hk => hcon k (Nat.lt_succ_iff.mp hk))
  have hlen : ((stepR repo)^[(univList repo roots).length + 1] roots.dedup).length ≤
      (univList repo roots).length :=
    (List.subperm_of_subset (iter_nodup _) (fun x hx => iter_univ _ x hx)).length_le
  omega

lemma iter_fix_persist {repo : Repo} {s : List Nat} (h : stepR repo s = s) :
    ∀ j, (stepR repo)^[j] s = s := by
  intro j
  induction j with
  | zero => rfl
  | succ j ih => rw [Function.iterate_succ_apply', ih, h]

lemma reachSet_fix (repo : Repo) (roots : List Nat) :
    stepR repo (reachSet repo roots) = reachSet repo roots := by
  obtain ⟨k, hk, hfix⟩ := exists_iter_fix repo roots
  have heq : reachSet repo roots = (stepR repo)^[k] roots.dedup := by
    unfold reachSet
    rw [show (univList repo roots).length + 1 =
      ((univList repo roots).length + 1 - k) + k by omega, Function.iterate_add_apply]
    exact iter_fix_persist hfix _
  rw [heq, hfix]

lemma reachSet_closed {repo : Repo} {roots : List Nat} :
    ∀ c ∈ reachSet repo roots, ∀ p ∈ parentsOf repo c, p ∈ reachSet repo roots := by
  intro c hc p hp
  by_contra hpn
  have hmem : p ∈ stepR repo (reachSet repo roots) :=
    mem_stepR.mpr (Or.inr ⟨⟨c, hc, hp⟩, hpn⟩)
  rw [reachSet_fix repo roots] at hmem
  exact hpn hmem

lemma reachSet_sound {repo : Repo} {roots : List Nat} :
    ∀ x ∈ reachSet repo roots, ∃ r ∈ roots, Reaches repo r x := by
  unfold reachSet
  generalize (univList repo roots).length + 1 = n
  induction n with
  | zero => intro x hx; exact ⟨x, List.mem_dedup.mp hx, Reaches.refl x⟩
  | succ n ih =>
    intro x hx
    rw [Function.iterate_succ_apply'] at hx
    rcases mem_stepR.mp hx with hx | ⟨⟨c, hc, hp⟩, -⟩
    · exact ih x hx
    · obtain ⟨r, hr, hreach⟩ := ih c hc
      exact ⟨r, hr, Reaches.tail hreach hp⟩

lemma reachSet_complete {repo : Repo} {roots : List Nat} {r x : Nat}
    (hr : r ∈ roots) (h : Reaches repo r x) : x ∈ reachSet repo roots := by
  induction h with
  | refl => exact iter_sub_zero _ _ hr
  | tail hreach hp ih => exact reachSet_closed _ ih _ hp

lemma reachSet_iff {repo : Repo} {roots : List Nat} {x : Nat} :
    x ∈ reachSet repo roots ↔ ∃ r ∈ roots, Reaches repo r x :=
  ⟨fun h => reachSet_sound x h, fun ⟨_, hr, h⟩ => reachSet_complete hr h⟩

lemma reachSet_nodup {repo : Repo} {roots : List Nat} : (reachSet repo roots).Nodup :=
  iter_nodup _

/-! ## Graph walker: topological emission correctness -/

lemma mem_readyList {repo : Repo} {pending : List Nat} {c : Nat} :
    c ∈ readyList repo pending ↔
      c ∈ pending ∧ ∀ p ∈ parentsOf repo c, p ∉ pending := by
  simp [readyList, List.mem_filter, decide_eq_true_eq]

lemma kahnF_subset {repo : Repo} :
    ∀ (fuel : Nat) (pending : List Nat) (x : Nat),
      x ∈ kahnF repo fuel pending → x ∈ pending := by
  intro fuel
  induction fuel with
  | zero => intro pending x hx; cases hx
  | succ fuel ih =>
    intro pending x hx
    simp only [kahnF] at hx
    by_cases hready : readyList repo pending = []
    · rw [if_pos hready] at hx; cases hx
    · rw [if_neg hready] at hx
      rcases List.mem_append.mp hx with hx | hx
      · exact (mem_readyList.mp hx).1
      · exact (List.mem_filter.mp (ih _ x hx)).1

lemma kahnF_nodup {repo : Repo} :
    ∀ (fuel : Nat) (pending : List Nat), pending.Nodup →
      (kahnF repo fuel pending).Nodup := by
  intro fuel
  induction fuel with
  | zero => intro pending _; exact List.nodup_nil
  | succ fuel ih =>
    intro pending h
    simp only [kahnF]
    by_cases hready : readyList repo pending = []
    · rw [if_pos hready]; exact List.nodup_nil
    · rw [if_neg hready]
      refine List.Nodup.append (List.Nodup.filter _ h) (ih _ (List.Nodup.filter _ h)) ?_
      rw [List.disjoint_left]
      intro a ha hmem
      have hsub := kahnF_subset fuel _ a hmem
      rcases List.mem_filter.mp hsub with ⟨-, hdec⟩
      exact (of_decide_eq_true hdec) ha

lemma exists_rank_min (rank : Nat → Nat) :
    ∀ (l : List Nat), l ≠ [] → ∃ m ∈ l, ∀ y ∈ l, rank m ≤ rank y := by
  intro l
  induction l with
  | nil => intro h; exact absurd rfl h
  | cons a l ih =>
    intro _
    by_cases hl : l = []
    · subst hl
      refine ⟨a, List.mem_cons_self a [], ?_⟩
      intro y hy
      cases List.mem_singleton.mp hy
      exact le_rfl
    · obtain ⟨m, hm, hmin⟩ := ih hl
      by_cases hle : rank a ≤ rank m
      · refine ⟨a, List.mem_cons_self a l, ?_⟩
        intro y hy
        rcases List.mem_cons.mp hy with rfl | hy
        · exact le_rfl
        · exact le_trans hle (hmin y hy)
      · refine ⟨m, List.mem_cons_of_mem a hm, ?_⟩
        intro y hy
        rcases List.mem_cons.mp hy with rfl | hy
        · exact le_of_lt (Nat.lt_of_not_le hle)
        · exact hmin y hy

lemma parentsOf_rank {repo : Repo} {rank : Nat → Nat}
    (hrank : ∀ co ∈ repo.commits, ∀ p ∈ co.parents, rank p < rank co.oid) :
    ∀ c p, p ∈ parentsOf repo c → rank p < rank c := by
  intro c p hp
  obtain ⟨co, hco, hoid, hpp⟩ := parentsOf_mem hp
  have := hrank co hco p hpp
  rwa [hoid] at this

lemma readyList_ne_nil {repo : Repo} {rank : Nat → Nat}
    (hlt : ∀ c p, p ∈ parentsOf repo c → rank p < rank c)
    {pending : List Nat} (h : pending ≠ []) : readyList repo pending ≠ [] := by
  obtain ⟨m, hm, hmin⟩ := exists_rank_min rank pending h
  intro hnil
  have hmem : m ∈ readyList repo pending := by
    rw [mem_readyList]
    refine ⟨hm, ?_⟩
    intro p hp hpmem
    exact absurd (hmin p hpmem) (Nat.not_le.mpr (hlt m p hp))
  rw [hnil] at hmem
  cases hmem

lemma kahnF_complete {repo : Repo} {rank : Nat → Nat}
    (hlt : ∀ c p, p ∈ parentsOf repo c → rank p < rank c) :
    ∀ (fuel : Nat) (pending : List Nat), pending.length < fuel →
      ∀ x ∈ pending, x ∈ kahnF repo fuel pending := by
  intro fuel
  induction fuel with
  | zero => intro pending h; exact absurd h (Nat.not_lt_zero _)
  | succ fuel ih =>
    intro pending hlen x hx
    have hready := readyList_ne_nil hlt (List.ne_nil_of_mem hx)
    simp only [kahnF]
    rw [if_neg hready]
    by_cases hxr : x ∈ readyList repo pending
    · exact List.mem_append.mpr (Or.inl hxr)
    · refine List.mem_append.mpr (Or.inr ?_)
      have hx' : x ∈ pending.filter (fun c => decide (c ∉ readyList repo pending)) :=
        List.mem_filter.mpr ⟨hx, decide_eq_true hxr⟩
      obtain ⟨r, hr⟩ := List.exists_mem_of_ne_nil _ hready
      have hlt2 : (pending.filter
          (fun c => decide (c ∉ readyList repo pending))).length < pending.length := by
        refine length_filter_lt_of_mem _ pending r (mem_readyList.mp hr).1 ?_
        exact decide_eq_false (not_not_intro hr)
      exact ih _ (by omega) x hx'

lemma kahnF_order {repo : Repo} :
    ∀ (fuel : Nat) (pending : List Nat) (C P : Nat), P ∈ parentsOf repo C →
      C ∈ kahnF repo fuel pending → P ∈ kahnF repo fuel pending →
      ∃ l1 l2, kahnF repo fuel pending = l1 ++ l2 ∧ P ∈ l1 ∧ C ∈ l2 := by
  intro fuel
  induction fuel with
  | zero => intro pending C P hpar hC hP; cases hC
  | succ fuel ih =>
    intro pending C P hpar hC hP
    by_cases hready : readyList repo pending = []
    · simp only [kahnF] at hC
      rw [if_pos hready] at hC
      cases hC
    · have hkeq : kahnF repo (fuel + 1) pending =
          readyList repo pending ++
            kahnF repo fuel (pending.filter (fun c => decide (c ∉ readyList repo pending))) := by
        simp only [kahnF]
        rw [if_neg hready]
      rw [hkeq] at hC hP ⊢
      rcases List.mem_append.mp hC with hCr | hCrest
      · exfalso
        have hPpend : P ∈ pending := by
          rcases List.mem_append.mp hP with hPr | hPrest
          · exact (mem_readyList.mp hPr).1
          · exact (List.mem_filter.mp (kahnF_subset fuel _ P hPrest)).1
        exact (mem_readyList.mp hCr).2 P hpar hPpend
      · rcases List.mem_append.mp hP with hPr | hPrest
        · exact ⟨readyList repo pending, _, rfl, hPr, hCrest⟩
        · obtain ⟨l1, l2, heq, hP1, hC2⟩ := ih _ C P hpar hCrest hPrest
          exact ⟨readyList repo pending ++ l1, l2,
            by rw [heq, List.append_assoc], List.mem_append.mpr (Or.inr hP1), hC2⟩

/-- Claim C10: the Ingestor implementation in src/ingest.rs is equivalent
to the inline implementation in src/main.rs — for every repository, store
state, commit and reuse-buffer state, `Ingestor::add_commit` produces the
same result store, the same error, and the same sequence of store reads
and writes (identical rows, identical compressed blob content) as the
main-loop body; only the reuse buffer (absent inline) differs. -/
theorem claim_C10 (repo : Repo) (fuel oid : Nat) (s : Store) (buf : Bytes) :
    dropBuf (Ingest.add_commit repo fuel oid s buf) = Main.addCommit repo fuel oid s := by
  simp only [Ingest.add_commit, Main.addCommit]
  cases hfc : repo.findCommit oid with
  | error er => simp [hfc, dropBuf]
  | ok c =>
    cases hft : repo.findTree c.tree with
    | error er => simp [hfc, hft, dropBuf]
    | ok t =>
      have hrel := equiv_tree repo fuel t s buf
      cases hatI : Ingest.add_tree repo fuel t s buf with
      | error er =>
        have hatM : Main.insert_tree repo fuel t s = .error er := by
          rw [hatI] at hrel
          simpa [dropBuf] using hrel.symm
        simp [hfc, hft, hatI, hatM, dropBuf]
      | ok pr =>
        obtain ⟨s1, buf1, evs⟩ := pr
        have hatM : Main.insert_tree repo fuel t s = .ok (s1, evs) := by
          rw [hatI] at hrel
          simpa [dropBuf] using hrel.symm
        simp [hfc, hft, hatI, hatM, dropBuf]

/-- Claim C9: blob storage round-trips.  Every blob row a run adds holds
exactly the single-frame compression of the repository blob with its oid,
so decompressing it yields the original raw bytes; and
`insert_blob_content` clears the reuse buffer before compressing, so its
result does not depend on bytes left over from previously compressed
blobs. -/
theorem claim_C9 (repo : Repo) (repoId fuel : Nat) (s0 : Store) (r : RunResult)
    (h : runIngest repo repoId fuel s0 = .ok r) :
    (∀ b ∈ r.store.blobs, b ∈ s0.blobs ∨
      ∃ c, repo.findBlob b.oid = .ok c ∧ b.content_lz4 = lz4Compress c.content ∧
        lz4Decompress b.content_lz4 = some c.content) ∧
    (∀ (s : Store) (buf : Bytes) (oid : Nat),
      Ingest.insert_blob_content repo oid s buf =
        Ingest.insert_blob_content repo oid s []) := by
  constructor
  · simp only [runIngest] at h
    cases hb : Main.ingestAll repo fuel
        (walkOutput repo (diffPairs (compare_refs s0 repoId repo "refs/heads/*"))) s0 with
    | error er => simp only [hb] at h; cases h
    | ok s1 =>
      simp only [hb, Except.ok.injEq] at h
      subst h
      have hok : BlobsOk repo s0 s1 := ingestAll_blobsOk hb (fun b hmem => Or.inl hmem)
      intro b hbmem
      rcases hok b hbmem with hold | ⟨c, hfind, hcomp⟩
      · exact Or.inl hold
      · exact Or.inr ⟨c, hfind, hcomp, by rw [hcomp]; exact lz4_roundtrip _⟩
  · intro s buf oid
    rfl

/-- Witness for C9: a trivial successful run (no matching refs), and the
buffer-independence consequence at a concrete dirty buffer. -/
theorem claim_C9_witness :
    Ingest.insert_blob_content ⟨[], [], [⟨20, [104, 105]⟩], []⟩ 20 ⟨[], [], [], []⟩ [9] =
      Ingest.insert_blob_content ⟨[], [], [⟨20, [104, 105]⟩], []⟩ 20 ⟨[], [], [], []⟩ [] :=
  (claim_C9 ⟨[], [], [⟨20, [104, 105]⟩], []⟩ 1 0 ⟨[], [], [], []⟩
    ⟨[], [], ⟨[], [], [], []⟩⟩ (by decide)).2 ⟨[], [], [], []⟩ [9] 20

/-- Claim C5 counterexample: after a successful first run of an unchanged
repository, the second run's reference differ re-emits the same non-empty
diff and the walker re-yields the same commit (because direct_refs was
never updated), contradicting the claimed empty diff and empty walk. -/
theorem claim_C5_counterexample :
    (runTwice ⟨[⟨1, 10, [], [], [], [], 0, [], [], 0⟩], [⟨10, []⟩], [],
        [⟨"refs/heads/m", RefTarget.direct 1⟩]⟩ 1 2 ⟨[], [], [], []⟩).map
      (fun r => (r.diffs, r.walk)) =
    .ok ([⟨"refs/heads/m", none, some 1⟩], [1]) := by decide

/-- Claim C5 (amended): re-running ingestion against an unchanged
repository is idempotent at the row level — the second run succeeds and
adds zero rows to commits, tree_entries, blobs and direct_refs (the store
is unchanged) — but the reference differ re-emits exactly the first run's
diff and the graph walker re-yields exactly the first run's commits,
because direct_refs is never updated; the re-walked commits reduce to
ignored conditional inserts. -/
theorem claim_C5_amended (repo : Repo) (repoId fuel : Nat) (s0 : Store)
    (r : RunResult) (h : runIngest repo repoId fuel s0 = .ok r) :
    runIngest repo repoId fuel r.store = .ok ⟨r.diffs, r.walk, r.store⟩ := by
  simp only [runIngest] at h ⊢
  cases hb : Main.ingestAll repo fuel
      (walkOutput repo (diffPairs (compare_refs s0 repoId repo "refs/heads/*"))) s0 with
  | error er => simp only [hb] at h; cases h
  | ok s1 =>
    simp only [hb, Except.ok.injEq] at h
    subst h
    have hdr : s1.direct_refs = s0.direct_refs := (ingestAll_mono hb).1.symm
    have hcr : compare_refs s1 repoId repo "refs/heads/*" =
        compare_refs s0 repoId repo "refs/heads/*" := by
      unfold compare_refs recordedRefs
      rw [hdr]
    rw [hcr]
    have hnoop := ingestAll_noop _ _ hb
    simp [hnoop]

/-- Witness for C5 (amended): the one-commit repository of the
counterexample; the second run returns the first run's diff, walk, and
store unchanged. -/
theorem claim_C5_witness :
    runIngest ⟨[⟨1, 10, [], [], [], [], 0, [], [], 0⟩], [⟨10, []⟩], [],
        [⟨"refs/heads/m", RefTarget.direct 1⟩]⟩ 1 2
        ⟨[], [⟨1, 10, [], [], [], [], 0, [], [], 0⟩], [], []⟩ =
      .ok ⟨[⟨"refs/heads/m", none, some 1⟩], [1],
        ⟨[], [⟨1, 10, [], [], [], [], 0, [], [], 0⟩], [], []⟩⟩ :=
  claim_C5_amended ⟨[⟨1, 10, [], [], [], [], 0, [], [], 0⟩], [⟨10, []⟩], [],
      [⟨"refs/heads/m", RefTarget.direct 1⟩]⟩ 1 2 ⟨[], [], [], []⟩
    ⟨[⟨"refs/heads/m", none, some 1⟩], [1],
      ⟨[], [⟨1, 10, [], [], [], [], 0, [], [], 0⟩], [], []⟩⟩ (by decide)

/-- Claim C2: for every list of (old_target, new_target) pairs, the graph
walker's output is deduplicated and contains exactly the commits reachable
from some new target and not reachable from any old target, with exclusion
resolved jointly across all pairs (so an old target itself, and anything
reachable from B but ancestral to any pair's old target, is excluded).
The acyclicity of the commit graph is witnessed by a rank function. -/
theorem claim_C2 (repo : Repo) (pairs : List (Option Nat × Option Nat))
    (rank : Nat → Nat)
    (hrank : ∀ co ∈ repo.commits, ∀ p ∈ co.parents, rank p < rank co.oid) :
    (walkOutput repo pairs).Nodup ∧
    ∀ x, x ∈ walkOutput repo pairs ↔
      ((∃ n ∈ pairs.filterMap (fun pr => pr.2), Reaches repo n x) ∧
       ∀ o ∈ pairs.filterMap (fun pr => pr.1), ¬ Reaches repo o x) := by
  have hlt := parentsOf_rank hrank
  have hws_nodup : (walkSet repo pairs).Nodup := List.Nodup.filter _ reachSet_nodup
  constructor
  · exact kahnF_nodup _ _ hws_nodup
  · intro x
    have hmem : x ∈ walkOutput repo pairs ↔ x ∈ walkSet repo pairs := by
      constructor
      · exact kahnF_subset _ _ x
      · intro hx
        exact kahnF_complete hlt _ _ (Nat.lt_succ_self _) x hx
    rw [hmem]
    simp only [walkSet, List.mem_filter, decide_eq_true_eq, reachSet_iff]
    constructor
    · rintro ⟨⟨n, hn, hr⟩, hno⟩
      refine ⟨⟨n, hn, hr⟩, ?_⟩
      intro o ho hro
      exact hno ⟨o, ho, hro⟩
    · rintro ⟨⟨n, hn, hr⟩, hno⟩
      refine ⟨⟨n, hn, hr⟩, ?_⟩
      rintro ⟨o, ho, hro⟩
      exact hno o ho hro

/-- Witness for C2: a two-commit repository (2 has parent 1) with pair
(old 1, new 2); the walk output is deduplicated. -/
theorem claim_C2_witness :
    (walkOutput ⟨[⟨2, 10, [1], [], [], [], 0, [], [], 0⟩,
        ⟨1, 10, [], [], [], [], 0, [], [], 0⟩], [⟨10, []⟩], [], []⟩
      [(some 1, some 2)]).Nodup :=
  (claim_C2 ⟨[⟨2, 10, [1], [], [], [], 0, [], [], 0⟩,
      ⟨1, 10, [], [], [], [], 0, [], [], 0⟩], [⟨10, []⟩], [], []⟩
    [(some 1, some 2)] (fun n => n) (by decide)).1

/-- Claim C6: commits are processed in topological order — whenever a
parent P and its child C are both emitted by the walk (hence both ingested
in that run, in the walk's order), P appears strictly before C in the
walker's output. -/
theorem claim_C6 (repo : Repo) (pairs : List (Option Nat × Option Nat)) (C P : Nat)
    (hpar : P ∈ parentsOf repo C)
    (hC : C ∈ walkOutput repo pairs) (hP : P ∈ walkOutput repo pairs) :
    ∃ l1 l2, walkOutput repo pairs = l1 ++ l2 ∧ P ∈ l1 ∧ C ∈ l2 :=
  kahnF_order _ _ C P hpar hC hP

/-- Witness for C6: in the two-commit repository, commit 1 (parent of 2)
is emitted before commit 2. -/
theorem claim_C6_witness :
    ∃ l1 l2, walkOutput ⟨[⟨2, 10, [1], [], [], [], 0, [], [], 0⟩,
        ⟨1, 10, [], [], [], [], 0, [], [], 0⟩], [⟨10, []⟩], [], []⟩
      [(none, some 2)] = l1 ++ l2 ∧ (1 : Nat) ∈ l1 ∧ (2 : Nat) ∈ l2 :=
  claim_C6 ⟨[⟨2, 10, [1], [], [], [], 0, [], [], 0⟩,
      ⟨1, 10, [], [], [], [], 0, [], [], 0⟩], [⟨10, []⟩], [], []⟩
    [(none, some 2)] 2 1 (by decide) (by decide) (by decide)

end Sgqlite
